import Mathlib

/-!
# Employee management service: store and handlers

A shallow embedding of `main.go`: the `Employee` record, the `EmployeeCache`
store with its four methods, and the five HTTP handlers.

* The Go map `map[string]Employee` is a list of key and value pairs, read by
  the first pair of a key.  The stores reached from `NewEmployeeCache()` hold
  one pair per key (`runOps_invariant`); the statements about the methods hold
  for every list.
* Every store method is one transition, a function from the store before the
  call to the returned values and the store after it.  A Go `error` is an
  `Option String` (`none` for `nil`).
* A Go `int` is 64 bits wide: arithmetic wraps around (`wrapInt`).  A runtime
  panic is the `none` of an `Option` result.
* The order in which Go ranges over a map is not fixed; the window of the List
  handler is therefore stated over an arbitrary snapshot list (`paginate`).
* The last part models the locking: every function as the steps it takes on
  the `sync.RWMutex` and on the map, interleaved by a scheduler.
-/

namespace EmployeeManagement

/-! ## Data model -/

/-- The `Employee` struct of `main.go`; `Salary` is a Go `int`. -/
structure Employee where
  ID : String
  Name : String
  Position : String
  Salary : Int
  deriving DecidableEq, Repr

/-- The zero value `Employee{}`. -/
def Employee.zero : Employee := ⟨"", "", "", 0⟩

/-- A Go `map[string]Employee`: its entries, in some order. -/
abbrev EmployeeMap := List (String × Employee)

/-- The map read `v, exists := m[k]`: `none` when the key is absent. -/
def EmployeeMap.get : EmployeeMap → String → Option Employee
  | [], _ => none
  | (k', v) :: rest, k => if k' = k then some v else EmployeeMap.get rest k

/-- The map write `m[k] = v`: replaces the value of a present key, adds an
entry for an absent one. -/
def EmployeeMap.set : EmployeeMap → String → Employee → EmployeeMap
  | [], k, v => [(k, v)]
  | (k', v') :: rest, k, v =>
    if k' = k then (k, v) :: rest else (k', v') :: EmployeeMap.set rest k v

/-- The builtin `delete(m, k)`: no entry under `k` is left. -/
def EmployeeMap.delete (m : EmployeeMap) (k : String) : EmployeeMap :=
  m.filter (fun p => decide (p.1 ≠ k))

/-- The `EmployeeCache` struct: the embedded lock carries no data, the state is
the map. -/
structure EmployeeCache where
  employeeData : EmployeeMap
  deriving DecidableEq, Repr

/-- `NewEmployeeCache`: a store with an empty map. -/
def NewEmployeeCache : EmployeeCache := ⟨[]⟩

/-! ## Store methods -/

/-- `CreateEmployee`: the returned `(Employee, error)` and the store afterwards. -/
def CreateEmployee (cache : EmployeeCache) (emp : Employee) :
    (Employee × Option String) × EmployeeCache :=
  match cache.employeeData.get emp.ID with
  | some _ => ((Employee.zero, some "employee already found"), cache)
  | none => ((emp, none), ⟨cache.employeeData.set emp.ID emp⟩)

/-- `GetEmployeeByID`: the returned `(Employee, error)`; the store is only read. -/
def GetEmployeeByID (cache : EmployeeCache) (id : String) : Employee × Option String :=
  match cache.employeeData.get id with
  | none => (Employee.zero, some "employee not found")
  | some emp => (emp, none)

/-- `UpdateEmployee`: the returned `(Employee, error)` and the store afterwards. -/
def UpdateEmployee (cache : EmployeeCache) (id name position : String) (salary : Int) :
    (Employee × Option String) × EmployeeCache :=
  match cache.employeeData.get id with
  | none => ((Employee.zero, some "employee not found"), cache)
  | some emp =>
    let emp := { emp with Name := name }
    let emp := { emp with Position := position }
    let emp := { emp with Salary := salary }
    ((emp, none), ⟨cache.employeeData.set id emp⟩)

/-- `DeleteEmployee`: the returned `error` and the store afterwards. -/
def DeleteEmployee (cache : EmployeeCache) (id : String) : Option String × EmployeeCache :=
  match cache.employeeData.get id with
  | none => (some "employee not found", cache)
  | some _ => (none, ⟨cache.employeeData.delete id⟩)

/-! ## Sequences of store calls -/

/-- One call of a mutating store method, with its arguments. -/
inductive StoreOp where
  | create (emp : Employee)
  | update (id name position : String) (salary : Int)
  | delete (id : String)
  deriving DecidableEq, Repr

/-- The store after one call, whether the call succeeds or fails. -/
def StoreOp.apply (cache : EmployeeCache) : StoreOp → EmployeeCache
  | .create emp => (CreateEmployee cache emp).2
  | .update id name position salary => (UpdateEmployee cache id name position salary).2
  | .delete id => (DeleteEmployee cache id).2

/-- The store reached from `NewEmployeeCache()` by a sequence of calls. -/
def runOps (ops : List StoreOp) : EmployeeCache :=
  ops.foldl StoreOp.apply NewEmployeeCache

/-! ## Machine integers and `strconv.Atoi` -/

/-- The largest Go `int` (64-bit). -/
def intMax : Int := 9223372036854775807

/-- The smallest Go `int` (64-bit). -/
def intMin : Int := -9223372036854775808

/-- Two's-complement wrap-around of an exact integer result into the 64-bit
`int` range, as Go's `+`, `-` and `*` on `int` do. -/
def wrapInt (x : Int) : Int :=
  (x + 9223372036854775808) % 18446744073709551616 - 9223372036854775808

/-- The largest `uint64`. -/
def maxUint64 : Nat := 18446744073709551615

/-- The loop of `strconv.ParseUint` in base 10, from the value `n` read so
far: a byte that is no digit is a syntax error (`none`); a digit with which
the value no longer fits a `uint64` ends the scan at once with the range
error, whose value is `maxUint64`, and the bytes after it are not read. -/
def parseUintFrom (n : Nat) : List Char → Option Nat
  | [] => some n
  | c :: rest =>
    if c.isDigit then
      if n * 10 + (c.toNat - 48) > maxUint64 then some maxUint64
      else parseUintFrom (n * 10 + (c.toNat - 48)) rest
    else none

/-- The value of `strconv.ParseUint(s, 10, 0)`: the empty string is a syntax
error (`none`). -/
def parseUint (cs : List Char) : Option Nat :=
  if cs = [] then none else parseUintFrom 0 cs

/-- The integer returned by Go's `strconv.Atoi` (its error is discarded by the
caller), as `strconv.ParseInt(s, 10, 0)` computes it: an optional sign, then
`ParseUint` on the rest; a syntax error gives 0, a magnitude of `2^63` or more
gives the largest `int`, and behind a minus sign a magnitude above `2^63`
gives the smallest `int`. -/
def Atoi (s : String) : Int :=
  match s.toList with
  | '-' :: ds =>
    match parseUint ds with
    | none => 0
    | some un => if un > 9223372036854775808 then intMin else -(un : Int)
  | '+' :: ds =>
    match parseUint ds with
    | none => 0
    | some un => if un ≥ 9223372036854775808 then intMax else (un : Int)
  | ds =>
    match parseUint ds with
    | none => 0
    | some un => if un ≥ 9223372036854775808 then intMax else (un : Int)

/-- The query lookup `c.DefaultQuery(key, defaultValue)`: the value of the key
when the request carries it, the default otherwise. -/
def DefaultQuery (value : Option String) (defaultValue : String) : String :=
  match value with
  | some v => v
  | none => defaultValue

/-! ## Handlers -/

/-- The body a handler writes. -/
inductive Body where
  | employees (list : List Employee)
  | employee (emp : Employee)
  | error (message : String)
  | empty
  deriving DecidableEq, Repr

/-- A response: status code and body. -/
structure Response where
  status : Nat
  body : Body
  deriving DecidableEq, Repr

def StatusOK : Nat := 200
def StatusCreated : Nat := 201
def StatusNoContent : Nat := 204
def StatusFound : Nat := 302
def StatusBadRequest : Nat := 400
def StatusNotFound : Nat := 404

/-- The slice expression `xs[low:high]` on a slice whose capacity equals its
length: `none` is the runtime panic for bounds outside
`0 <= low <= high <= len(xs)`. -/
def sliceExpr {α : Type} (xs : List α) (low high : Int) : Option (List α) :=
  if 0 ≤ low ∧ low ≤ high ∧ high ≤ (xs.length : Int) then
    some ((xs.drop low.toNat).take (high.toNat - low.toNat))
  else none

/-- Lines 87 to 96 of `ListEmployeesDetails`: the window over the snapshot
`employees` for the parsed `page` and `perPage`; `none` when the slice
expression panics. -/
def paginate (employees : List Employee) (page perPage : Int) : Option (List Employee) :=
  let start := wrapInt (wrapInt (page - 1) * perPage)
  let end_ := wrapInt (start + perPage)
  let start := if start ≥ (employees.length : Int) then (employees.length : Int) else start
  let end_ := if end_ ≥ (employees.length : Int) then (employees.length : Int) else end_
  sliceExpr employees start end_

/-- `ListEmployeesDetails`, from the two query values (absent or present) of
the request: `none` when the handler panics, the response otherwise.  The
snapshot lists the map's records in the order of its entries. -/
def ListEmployeesDetails (cache : EmployeeCache) (pageQuery perPageQuery : Option String) :
    Option Response :=
  let page := Atoi (DefaultQuery pageQuery "1")
  let perPage := Atoi (DefaultQuery perPageQuery "10")
  let employees := cache.employeeData.map Prod.snd
  match paginate employees page perPage with
  | none => none
  | some paginatedEmployees => some ⟨StatusOK, Body.employees paginatedEmployees⟩

/-- `CreateEmployeeDetails`, from the result of binding the body (the error
text or the bound record) and the string of the fresh `uuid.New()`. -/
def CreateEmployeeDetails (cache : EmployeeCache) (bound : Except String Employee)
    (newID : String) : Response × EmployeeCache :=
  match bound with
  | .error err => (⟨StatusBadRequest, Body.error err⟩, cache)
  | .ok emp =>
    let emp := { emp with ID := newID }
    match CreateEmployee cache emp with
    | ((_, some err), cache) => (⟨StatusFound, Body.error err⟩, cache)
    | ((newEmp, none), cache) => (⟨StatusCreated, Body.employee newEmp⟩, cache)

/-- `GetEmployeeDetails`, from the path parameter `id`. -/
def GetEmployeeDetails (cache : EmployeeCache) (id : String) : Response :=
  match GetEmployeeByID cache id with
  | (_, some err) => ⟨StatusNotFound, Body.error err⟩
  | (emp, none) => ⟨StatusOK, Body.employee emp⟩

/-- `UpdateEmployeeDetails`, from the path parameter `id` and the result of
binding the body. -/
def UpdateEmployeeDetails (cache : EmployeeCache) (id : String)
    (bound : Except String Employee) : Response × EmployeeCache :=
  match bound with
  | .error err => (⟨StatusBadRequest, Body.error err⟩, cache)
  | .ok emp =>
    match UpdateEmployee cache id emp.Name emp.Position emp.Salary with
    | ((_, some err), cache) => (⟨StatusNotFound, Body.error err⟩, cache)
    | ((updatedEmp, none), cache) => (⟨StatusOK, Body.employee updatedEmp⟩, cache)

/-- `DeleteEmployeeDetails`, from the path parameter `id`. -/
def DeleteEmployeeDetails (cache : EmployeeCache) (id : String) : Response × EmployeeCache :=
  match DeleteEmployee cache id with
  | (some err, cache) => (⟨StatusNotFound, Body.error err⟩, cache)
  | (none, cache) => (⟨StatusNoContent, Body.empty⟩, cache)

/-! ## Lock discipline

The sequential definitions above run each method as one transition.  To speak
about goroutines running side by side, each function is also written as the
sequence of steps it takes on the store's `sync.RWMutex` and on the map, and a
scheduler interleaves the steps of several goroutines. -/

/-- One step of a goroutine on the store: an operation of the embedded
`sync.RWMutex` or an access to the map `employeeData`. -/
inductive LockAction where
  | lock
  | unlock
  | rLock
  | rUnlock
  | readMap
  | writeMap
  deriving DecidableEq, Repr

/-- The state of a `sync.RWMutex`: whether a writer holds it, and how many
readers do. -/
structure RWMutex where
  writer : Bool
  readers : Nat
  deriving DecidableEq, Repr

/-- The effect of one step on the mutex; `none` when the step cannot be taken
in this state (a `Lock` or `RLock` that has to wait, an unlock of a lock that
is not held).  Map accesses never wait. -/
def RWMutex.step (m : RWMutex) : LockAction → Option RWMutex
  | .lock => if m.writer = false ∧ m.readers = 0 then some ⟨true, 0⟩ else none
  | .unlock => if m.writer = true then some ⟨false, m.readers⟩ else none
  | .rLock => if m.writer = false then some ⟨false, m.readers + 1⟩ else none
  | .rUnlock => if 0 < m.readers then some ⟨m.writer, m.readers - 1⟩ else none
  | .readMap => some m
  | .writeMap => some m

/-- The steps of `CreateEmployee`: `Lock` (line 31), the lookup (line 33), the
insertion (line 37) when the ID is absent, and the deferred `Unlock`. -/
def CreateEmployeeSteps (present : Bool) : List LockAction :=
  if present then [.lock, .readMap, .unlock] else [.lock, .readMap, .writeMap, .unlock]

/-- The steps of `GetEmployeeByID`: `RLock` (line 42), the lookup (line 44),
and the deferred `RUnlock`. -/
def GetEmployeeByIDSteps : List LockAction := [.rLock, .readMap, .rUnlock]

/-- The steps of `UpdateEmployee`: `Lock` (line 52), the lookup (line 54), the
write back (line 61) when the id is present, and the deferred `Unlock`. -/
def UpdateEmployeeSteps (present : Bool) : List LockAction :=
  if present then [.lock, .readMap, .writeMap, .unlock] else [.lock, .readMap, .unlock]

/-- The steps of `DeleteEmployee`: `Lock` (line 66), the lookup (line 68), the
`delete` (line 72) when the id is present, and the deferred `Unlock`. -/
def DeleteEmployeeSteps (present : Bool) : List LockAction :=
  if present then [.lock, .readMap, .writeMap, .unlock] else [.lock, .readMap, .unlock]

/-- The steps of `ListEmployeesDetails` on the store: `len(cache.employeeData)`
(line 82) and the `range` over the map (lines 83 to 85); the handler calls no
method of the lock. -/
def ListEmployeesDetailsSteps : List LockAction := [.readMap, .readMap]

/-- The mutex and the steps each goroutine still has to take. -/
structure System where
  mutex : RWMutex
  goroutines : List (List LockAction)
  deriving DecidableEq, Repr

/-- Goroutine `i` takes its next step: the mutex and the goroutines
afterwards, `none` when there is no such goroutine, it has finished, or its
step has to wait. -/
def stepAt (m : RWMutex) : List (List LockAction) → Nat → Option (RWMutex × List (List LockAction))
  | [], _ => none
  | [] :: _, 0 => none
  | (a :: rest) :: others, 0 =>
    match m.step a with
    | none => none
    | some m' => some (m', rest :: others)
  | g :: others, i + 1 =>
    match stepAt m others i with
    | none => none
    | some (m', others') => some (m', g :: others')

/-- One scheduling step of the system. -/
def System.step (s : System) (i : Nat) : Option System :=
  match stepAt s.mutex s.goroutines i with
  | none => none
  | some (m, gs) => some ⟨m, gs⟩

/-- The system after a schedule, the list of the goroutines that step in turn. -/
def System.run (s : System) : List Nat → Option System
  | [] => some s
  | i :: schedule =>
    match s.step i with
    | none => none
    | some s' => s'.run schedule

/-- The next step of the goroutine is the given one. -/
def nextIs (a : LockAction) (g : List LockAction) : Bool :=
  decide (g.head? = some a)

/-- The next step of the goroutine reads or writes the map. -/
def accessesMap (g : List LockAction) : Bool :=
  nextIs .readMap g || nextIs .writeMap g

/-- Two different goroutines are about to access the map at the same time,
one of them writing: a write that is not exclusive. -/
def raceIn : List (List LockAction) → Bool
  | [] => false
  | g :: others =>
    (nextIs .writeMap g && others.any accessesMap) ||
      (accessesMap g && others.any (nextIs .writeMap)) || raceIn others

/-- What a goroutine holds of the lock. -/
inductive Hold where
  | free
  | write
  | read
  deriving DecidableEq, Repr

/-- The steps follow the locking discipline from the given holding on: the map
is read only under the read or the write lock, written only under the write
lock, and every lock taken is released before the steps end. -/
def wellLocked : Hold → List LockAction → Bool
  | .free, [] => true
  | .free, .lock :: rest => wellLocked .write rest
  | .free, .rLock :: rest => wellLocked .read rest
  | .write, .unlock :: rest => wellLocked .free rest
  | .write, .readMap :: rest => wellLocked .write rest
  | .write, .writeMap :: rest => wellLocked .write rest
  | .read, .rUnlock :: rest => wellLocked .free rest
  | .read, .readMap :: rest => wellLocked .read rest
  | _, _ => false

/-- What a goroutine holds, read off the steps it still has to take: the lock
whose release comes first. -/
def holdOf : List LockAction → Hold
  | [] => .free
  | .readMap :: rest => holdOf rest
  | .writeMap :: rest => holdOf rest
  | .unlock :: _ => .write
  | .rUnlock :: _ => .read
  | _ :: _ => .free

/-- The number of goroutines holding the write lock. -/
def writersIn : List (List LockAction) → Nat
  | [] => 0
  | g :: others => (if holdOf g = .write then 1 else 0) + writersIn others

/-- The number of goroutines holding the read lock. -/
def readersIn : List (List LockAction) → Nat
  | [] => 0
  | g :: others => (if holdOf g = .read then 1 else 0) + readersIn others

/-! ## Lemmas on the map -/

theorem EmployeeMap.get_set_self (m : EmployeeMap) (k : String) (v : Employee) :
    (m.set k v).get k = some v := by
  induction m with
  | nil => simp [EmployeeMap.set, EmployeeMap.get]
  | cons p rest ih =>
    obtain ⟨k', v'⟩ := p
    by_cases h : k' = k
    · simp [EmployeeMap.set, EmployeeMap.get, h]
    · simp [EmployeeMap.set, EmployeeMap.get, h, ih]

theorem EmployeeMap.get_set_other (m : EmployeeMap) (k j : String) (v : Employee)
    (hj : j ≠ k) : (m.set k v).get j = m.get j := by
  induction m with
  | nil => simp [EmployeeMap.set, EmployeeMap.get, Ne.symm hj]
  | cons p rest ih =>
    obtain ⟨k', v'⟩ := p
    by_cases h : k' = k
    · subst h
      simp [EmployeeMap.set, EmployeeMap.get, Ne.symm hj]
    · by_cases h2 : k' = j
      · subst h2
        simp [EmployeeMap.set, EmployeeMap.get, h]
      · simp [EmployeeMap.set, EmployeeMap.get, h, h2, ih]

theorem EmployeeMap.get_delete_self (m : EmployeeMap) (k : String) :
    (m.delete k).get k = none := by
  induction m with
  | nil => simp [EmployeeMap.delete, EmployeeMap.get]
  | cons p rest ih =>
    obtain ⟨k', v'⟩ := p
    by_cases h : k' = k
    · simpa [EmployeeMap.delete, h] using ih
    · simpa [EmployeeMap.delete, EmployeeMap.get, h] using ih

theorem EmployeeMap.get_delete_other (m : EmployeeMap) (k j : String) (hj : j ≠ k) :
    (m.delete k).get j = m.get j := by
  induction m with
  | nil => simp [EmployeeMap.delete, EmployeeMap.get]
  | cons p rest ih =>
    obtain ⟨k', v'⟩ := p
    by_cases h : k' = k
    · subst h
      simpa [EmployeeMap.delete, EmployeeMap.get, Ne.symm hj] using ih
    · by_cases h2 : k' = j
      · subst h2
        simp [EmployeeMap.delete, EmployeeMap.get, h]
      · simpa [EmployeeMap.delete, EmployeeMap.get, h, h2] using ih

theorem EmployeeMap.mem_of_get (m : EmployeeMap) (k : String) (e : Employee)
    (h : m.get k = some e) : (k, e) ∈ m := by
  induction m with
  | nil => simp [EmployeeMap.get] at h
  | cons p rest ih =>
    obtain ⟨k', v'⟩ := p
    by_cases hk : k' = k
    · subst hk
      simp [EmployeeMap.get] at h
      simp [h]
    · simp [EmployeeMap.get, hk] at h
      exact List.mem_cons_of_mem _ (ih h)

theorem EmployeeMap.set_of_absent (m : EmployeeMap) (k : String) (v : Employee)
    (h : m.get k = none) : m.set k v = m ++ [(k, v)] := by
  induction m with
  | nil => rfl
  | cons p rest ih =>
    obtain ⟨k', v'⟩ := p
    by_cases hk : k' = k
    · simp [EmployeeMap.get, hk] at h
    · simp [EmployeeMap.get, hk] at h
      simp [EmployeeMap.set, hk, ih h]

theorem EmployeeMap.mem_set (m : EmployeeMap) (k : String) (v : Employee)
    (p : String × Employee) (hp : p ∈ m.set k v) : p = (k, v) ∨ p ∈ m := by
  induction m with
  | nil => simpa [EmployeeMap.set] using hp
  | cons q rest ih =>
    obtain ⟨k', v'⟩ := q
    by_cases hk : k' = k
    · simp [EmployeeMap.set, hk] at hp
      rcases hp with hp | hp
      · exact Or.inl hp
      · exact Or.inr (List.mem_cons_of_mem _ hp)
    · simp only [EmployeeMap.set, hk, if_false, List.mem_cons] at hp
      rcases hp with hp | hp
      · exact Or.inr (by simp [hp])
      · rcases ih hp with h | h
        · exact Or.inl h
        · exact Or.inr (List.mem_cons_of_mem _ h)

theorem EmployeeMap.keys_set (m : EmployeeMap) (k j : String) (v : Employee) :
    j ∈ (m.set k v).map Prod.fst ↔ j = k ∨ j ∈ m.map Prod.fst := by
  induction m with
  | nil => simp [EmployeeMap.set]
  | cons q rest ih =>
    obtain ⟨k', v'⟩ := q
    by_cases hk : k' = k
    · subst hk
      simp [EmployeeMap.set]
    · simp only [EmployeeMap.set, hk, if_false, List.map_cons, List.mem_cons, ih]
      tauto

theorem EmployeeMap.nodup_keys_set (m : EmployeeMap) (k : String) (v : Employee)
    (h : (m.map Prod.fst).Nodup) : ((m.set k v).map Prod.fst).Nodup := by
  induction m with
  | nil => simp [EmployeeMap.set]
  | cons q rest ih =>
    obtain ⟨k', v'⟩ := q
    rw [List.map_cons, List.nodup_cons] at h
    by_cases hk : k' = k
    · subst hk
      simpa [EmployeeMap.set] using h
    · simp only [EmployeeMap.set, hk, if_false, List.map_cons, List.nodup_cons]
      refine ⟨?_, ih h.2⟩
      rw [EmployeeMap.keys_set]
      rintro (h1 | h1)
      · exact hk h1
      · exact h.1 h1

theorem EmployeeMap.nodup_keys_delete (m : EmployeeMap) (k : String)
    (h : (m.map Prod.fst).Nodup) : ((m.delete k).map Prod.fst).Nodup :=
  List.Nodup.sublist (List.Sublist.map _ (List.filter_sublist _)) h

/-- The invariant of the store: one entry per key, each record under its own ID. -/
theorem runOps_invariant (ops : List StoreOp) :
    ((runOps ops).employeeData.map Prod.fst).Nodup ∧
      ∀ p ∈ (runOps ops).employeeData, p.2.ID = p.1 := by
  have key : ∀ (l : List StoreOp) (s : EmployeeCache),
      ((s.employeeData.map Prod.fst).Nodup ∧ ∀ p ∈ s.employeeData, p.2.ID = p.1) →
      (((l.foldl StoreOp.apply s).employeeData.map Prod.fst).Nodup ∧
        ∀ p ∈ (l.foldl StoreOp.apply s).employeeData, p.2.ID = p.1) := by
    intro l
    induction l with
    | nil => intro s hs; simpa using hs
    | cons op rest ih =>
      intro s hs
      rw [List.foldl_cons]
      apply ih
      obtain ⟨hn, hid⟩ := hs
      cases op with
      | create emp =>
        simp only [StoreOp.apply, CreateEmployee]
        cases hg : s.employeeData.get emp.ID with
        | some r => exact ⟨hn, hid⟩
        | none =>
          refine ⟨EmployeeMap.nodup_keys_set _ _ _ hn, ?_⟩
          intro p hp
          rcases EmployeeMap.mem_set _ _ _ _ hp with h | h
          · rw [h]
          · exact hid p h
      | update id name position salary =>
        simp only [StoreOp.apply, UpdateEmployee]
        cases hg : s.employeeData.get id with
        | none => exact ⟨hn, hid⟩
        | some r =>
          refine ⟨EmployeeMap.nodup_keys_set _ _ _ hn, ?_⟩
          intro p hp
          rcases EmployeeMap.mem_set _ _ _ _ hp with h | h
          · rw [h]
            exact hid (id, r) (EmployeeMap.mem_of_get _ _ _ hg)
          · exact hid p h
      | delete id =>
        simp only [StoreOp.apply, DeleteEmployee]
        cases hg : s.employeeData.get id with
        | none => exact ⟨hn, hid⟩
        | some r =>
          refine ⟨EmployeeMap.nodup_keys_delete _ _ hn, ?_⟩
          intro p hp
          exact hid p (List.mem_of_mem_filter hp)
  exact key ops NewEmployeeCache ⟨by simp [NewEmployeeCache], by simp [NewEmployeeCache]⟩

theorem wrapInt_of_range (x : Int) (hlo : intMin ≤ x) (hhi : x ≤ intMax) : wrapInt x = x := by
  unfold intMin at hlo
  unfold intMax at hhi
  unfold wrapInt
  omega

theorem paginate_of_negative_start (employees : List Employee) (page perPage : Int)
    (h : wrapInt (wrapInt (page - 1) * perPage) < 0) :
    paginate employees page perPage = none := by
  have hlen : (0 : Int) ≤ (employees.length : Int) := Int.ofNat_nonneg _
  simp only [paginate, sliceExpr]
  generalize wrapInt (wrapInt (page - 1) * perPage) = start at h
  generalize wrapInt (start + perPage) = stop
  split_ifs <;> first | rfl | omega

theorem paginate_of_negative_end (employees : List Employee) (page perPage : Int)
    (h : wrapInt (wrapInt (wrapInt (page - 1) * perPage) + perPage) < 0) :
    paginate employees page perPage = none := by
  have hlen : (0 : Int) ≤ (employees.length : Int) := Int.ofNat_nonneg _
  simp only [paginate, sliceExpr]
  generalize wrapInt (wrapInt (page - 1) * perPage) = start at h
  generalize wrapInt (start + perPage) = stop at h
  split_ifs <;> first | rfl | omega

/-- Where `end` does not overflow the window is the one the specification
describes: for every snapshot, every `page >= 1` and `per_page >= 0` with
`(page-1)*per_page + per_page` inside the machine int, the snapshot with the
first `(page-1)*per_page` records dropped and then at most `per_page` taken;
it has at most `per_page` records, and with `page = 1` and `per_page` at least
the length it is the whole snapshot. -/
theorem paginate_window (employees : List Employee) (page perPage : Int)
    (hpage : 1 ≤ page) (hper : 0 ≤ perPage)
    (hend : (page - 1) * perPage + perPage ≤ intMax) :
    paginate employees page perPage
        = some ((employees.drop ((page - 1) * perPage).toNat).take perPage.toNat) ∧
      ((employees.drop ((page - 1) * perPage).toNat).take perPage.toNat).length
        ≤ perPage.toNat ∧
      (page = 1 → (employees.length : Int) ≤ perPage →
        paginate employees page perPage = some employees) := by
  have hS0 : 0 ≤ (page - 1) * perPage := mul_nonneg (by omega) hper
  have hstart : wrapInt (wrapInt (page - 1) * perPage) = (page - 1) * perPage := by
    rcases eq_or_lt_of_le hper with h | h
    · rw [← h]
      simp only [mul_zero]
      decide
    · have hp1 : page - 1 ≤ (page - 1) * perPage := by nlinarith
      have hmin : intMin ≤ 0 := by decide
      rw [wrapInt_of_range (page - 1) (by omega) (by omega)]
      exact wrapInt_of_range _ (by omega) (by omega)
  have hmain : paginate employees page perPage
      = some ((employees.drop ((page - 1) * perPage).toNat).take perPage.toNat) := by
    have hmin : intMin ≤ 0 := by decide
    have hendw : wrapInt ((page - 1) * perPage + perPage) = (page - 1) * perPage + perPage :=
      wrapInt_of_range _ (by omega) hend
    simp only [paginate, hstart, hendw]
    generalize (page - 1) * perPage = S at hS0 hend
    clear hstart hendw
    unfold sliceExpr
    by_cases h1 : S ≥ (employees.length : Int)
    · have h2 : S + perPage ≥ (employees.length : Int) := by omega
      simp only [h1, h2, if_true]
      rw [if_pos ⟨Int.ofNat_nonneg _, le_refl _, le_refl _⟩]
      have hd : employees.drop S.toNat = [] := List.drop_eq_nil_of_le (by omega)
      have hd2 : employees.drop ((employees.length : Int)).toNat = [] :=
        List.drop_eq_nil_of_le (by simp)
      rw [hd, hd2]
      simp
    · by_cases h2 : S + perPage ≥ (employees.length : Int)
      · simp only [h1, h2, if_true, if_false]
        rw [if_pos ⟨hS0, by omega, le_refl _⟩]
        have hl : (employees.drop S.toNat).length ≤ ((employees.length : Int)).toNat - S.toNat := by
          rw [List.length_drop]
          simp
        have hl2 : (employees.drop S.toNat).length ≤ perPage.toNat := by
          rw [List.length_drop]
          omega
        rw [List.take_of_length_le hl, List.take_of_length_le hl2]
      · simp only [h1, h2, if_false]
        rw [if_pos ⟨hS0, by omega, by omega⟩]
        have : (S + perPage).toNat - S.toNat = perPage.toNat := by omega
        rw [this]
  refine ⟨hmain, ?_, ?_⟩
  · exact List.length_take_le _ _
  · intro hp hn
    rw [hmain]
    subst hp
    have hl : (employees.drop (((1 : Int) - 1) * perPage).toNat).length ≤ perPage.toNat := by
      rw [List.length_drop]
      omega
    rw [List.take_of_length_le hl]
    simp

theorem Atoi_range (s : String) : intMin ≤ Atoi s ∧ Atoi s ≤ intMax := by
  have h0 : intMin ≤ 0 ∧ (0 : Int) ≤ intMax := by decide
  unfold Atoi
  split
  · split
    · exact h0
    · split_ifs
      · decide
      · unfold intMin intMax
        omega
  · split
    · exact h0
    · split_ifs
      · decide
      · unfold intMin intMax
        omega
  · split
    · exact h0
    · split_ifs
      · decide
      · unfold intMin intMax
        omega

theorem paginate_of_end_overflow (employees : List Employee) (page perPage : Int)
    (hpage : 1 ≤ page) (hpmax : page ≤ intMax) (hper : 0 ≤ perPage) (hqmax : perPage ≤ intMax)
    (hstart : (page - 1) * perPage ≤ intMax)
    (hend : intMax < (page - 1) * perPage + perPage) :
    paginate employees page perPage = none := by
  apply paginate_of_negative_end
  have hS0 : 0 ≤ (page - 1) * perPage := mul_nonneg (by omega) hper
  have hmin : intMin ≤ 0 := by decide
  rw [wrapInt_of_range (page - 1) (by omega) (by omega),
    wrapInt_of_range ((page - 1) * perPage) (by omega) hstart]
  generalize (page - 1) * perPage = S at hS0 hstart hend
  unfold intMax at hstart hend hqmax
  unfold wrapInt
  omega

/-- The List handler, where `end` does not overflow: it answers 200 with the
window of `paginate_window` over the records of the store. -/
theorem list_handler_window (cache : EmployeeCache) (pageQuery perPageQuery : Option String)
    (hpage : 1 ≤ Atoi (DefaultQuery pageQuery "1"))
    (hper : 0 ≤ Atoi (DefaultQuery perPageQuery "10"))
    (hend : (Atoi (DefaultQuery pageQuery "1") - 1) * Atoi (DefaultQuery perPageQuery "10")
      + Atoi (DefaultQuery perPageQuery "10") ≤ intMax) :
    ListEmployeesDetails cache pageQuery perPageQuery
      = some ⟨200, Body.employees
          (((cache.employeeData.map Prod.snd).drop
              ((Atoi (DefaultQuery pageQuery "1") - 1)
                * Atoi (DefaultQuery perPageQuery "10")).toNat).take
            (Atoi (DefaultQuery perPageQuery "10")).toNat)⟩ := by
  unfold ListEmployeesDetails
  simp only [(paginate_window (cache.employeeData.map Prod.snd) _ _ hpage hper hend).1, StatusOK]

/-- The examples of the specification: on three records, `page=1&per_page=10`
answers all three and `per_page=2` answers two. -/
theorem list_handler_examples :
    ListEmployeesDetails
        ⟨[("1", ⟨"1", "a", "x", 1⟩), ("2", ⟨"2", "b", "y", 2⟩), ("3", ⟨"3", "c", "z", 3⟩)]⟩
        (some "1") (some "10")
      = some ⟨200, Body.employees
          [⟨"1", "a", "x", 1⟩, ⟨"2", "b", "y", 2⟩, ⟨"3", "c", "z", 3⟩]⟩ ∧
    ListEmployeesDetails
        ⟨[("1", ⟨"1", "a", "x", 1⟩), ("2", ⟨"2", "b", "y", 2⟩), ("3", ⟨"3", "c", "z", 3⟩)]⟩
        none (some "2")
      = some ⟨200, Body.employees [⟨"1", "a", "x", 1⟩, ⟨"2", "b", "y", 2⟩]⟩ := by
  decide

/-! ## Lemmas on the lock discipline -/

theorem holdOf_of_wellLocked (g : List LockAction) :
    ∀ h : Hold, wellLocked h g = true → holdOf g = h := by
  induction g with
  | nil => intro h; cases h <;> simp [wellLocked, holdOf]
  | cons a rest ih =>
    intro h hw
    cases h <;> cases a <;> simp [wellLocked, holdOf] at hw ⊢ <;> exact ih _ hw

theorem wellLocked_tail (a : LockAction) (rest : List LockAction)
    (h : wellLocked (holdOf (a :: rest)) (a :: rest) = true) :
    wellLocked (holdOf rest) rest = true ∧
      (a = .lock → holdOf (a :: rest) = .free ∧ holdOf rest = .write) ∧
      (a = .unlock → holdOf (a :: rest) = .write ∧ holdOf rest = .free) ∧
      (a = .rLock → holdOf (a :: rest) = .free ∧ holdOf rest = .read) ∧
      (a = .rUnlock → holdOf (a :: rest) = .read ∧ holdOf rest = .free) ∧
      (a = .readMap → holdOf (a :: rest) = holdOf rest ∧ holdOf rest ≠ .free) ∧
      (a = .writeMap → holdOf (a :: rest) = holdOf rest ∧ holdOf rest = .write) := by
  cases a with
  | lock =>
    have hw : wellLocked .write rest = true := by simpa [holdOf, wellLocked] using h
    have hh := holdOf_of_wellLocked rest _ hw
    simp [hh, hw, holdOf]
  | unlock =>
    have hw : wellLocked .free rest = true := by simpa [holdOf, wellLocked] using h
    have hh := holdOf_of_wellLocked rest _ hw
    simp [hh, hw, holdOf]
  | rLock =>
    have hw : wellLocked .read rest = true := by simpa [holdOf, wellLocked] using h
    have hh := holdOf_of_wellLocked rest _ hw
    simp [hh, hw, holdOf]
  | rUnlock =>
    have hw : wellLocked .free rest = true := by simpa [holdOf, wellLocked] using h
    have hh := holdOf_of_wellLocked rest _ hw
    simp [hh, hw, holdOf]
  | readMap =>
    simp only [holdOf] at h
    cases hr : holdOf rest with
    | free => rw [hr] at h; simp [wellLocked] at h
    | write => rw [hr] at h; simpa [wellLocked, holdOf, hr] using h
    | read => rw [hr] at h; simpa [wellLocked, holdOf, hr] using h
  | writeMap =>
    simp only [holdOf] at h
    cases hr : holdOf rest with
    | free => rw [hr] at h; simp [wellLocked] at h
    | write => rw [hr] at h; simpa [wellLocked, holdOf, hr] using h
    | read => rw [hr] at h; simp [wellLocked] at h

theorem stepAt_effect (m : RWMutex) (gs : List (List LockAction)) :
    ∀ (i : Nat) (m' : RWMutex) (gs' : List (List LockAction)),
      stepAt m gs i = some (m', gs') →
      (∀ g ∈ gs, wellLocked (holdOf g) g = true) →
      (∀ g ∈ gs', wellLocked (holdOf g) g = true) ∧
        ∃ a, m.step a = some m' ∧
          (a = .lock → writersIn gs' = writersIn gs + 1 ∧ readersIn gs' = readersIn gs) ∧
          (a = .unlock → writersIn gs' + 1 = writersIn gs ∧ readersIn gs' = readersIn gs) ∧
          (a = .rLock → writersIn gs' = writersIn gs ∧ readersIn gs' = readersIn gs + 1) ∧
          (a = .rUnlock → writersIn gs' = writersIn gs ∧ readersIn gs' + 1 = readersIn gs) ∧
          (a = .readMap → writersIn gs' = writersIn gs ∧ readersIn gs' = readersIn gs) ∧
          (a = .writeMap → writersIn gs' = writersIn gs ∧ readersIn gs' = readersIn gs) := by
  induction gs with
  | nil => intro i m' gs' h; simp [stepAt] at h
  | cons g others ih =>
    intro i m' gs' h hwl
    cases i with
    | zero =>
      cases g with
      | nil => simp [stepAt] at h
      | cons a rest =>
        simp only [stepAt] at h
        cases hm : m.step a with
        | none => rw [hm] at h; simp at h
        | some m1 =>
          rw [hm] at h
          simp only [Option.some.injEq, Prod.mk.injEq] at h
          obtain ⟨h1, h2⟩ := h
          subst h1
          subst h2
          obtain ⟨ht, hl, hu, hrl, hru, hrd, hwr⟩ :=
            wellLocked_tail a rest (hwl _ (List.mem_cons_self _ _))
          refine ⟨?_, a, hm, ?_, ?_, ?_, ?_, ?_, ?_⟩
          · intro g hg
            rcases List.mem_cons.mp hg with hg | hg
            · rw [hg]; exact ht
            · exact hwl g (List.mem_cons_of_mem _ hg)
          · intro ha
            obtain ⟨e1, e2⟩ := hl ha
            simp [writersIn, readersIn, e1, e2]
            omega
          · intro ha
            obtain ⟨e1, e2⟩ := hu ha
            simp [writersIn, readersIn, e1, e2]
            omega
          · intro ha
            obtain ⟨e1, e2⟩ := hrl ha
            simp [writersIn, readersIn, e1, e2]
            omega
          · intro ha
            obtain ⟨e1, e2⟩ := hru ha
            simp [writersIn, readersIn, e1, e2]
            omega
          · intro ha
            obtain ⟨e1, _⟩ := hrd ha
            simp [writersIn, readersIn, e1]
          · intro ha
            obtain ⟨e1, _⟩ := hwr ha
            simp [writersIn, readersIn, e1]
    | succ j =>
      simp only [stepAt] at h
      cases hs : stepAt m others j with
      | none => rw [hs] at h; simp at h
      | some r =>
        obtain ⟨m1, others1⟩ := r
        rw [hs] at h
        simp only [Option.some.injEq, Prod.mk.injEq] at h
        obtain ⟨h1, h2⟩ := h
        subst h1
        subst h2
        obtain ⟨hw1, a, hm, hl, hu, hrl, hru, hrd, hwr⟩ :=
          ih j m1 others1 hs (fun g hg => hwl g (List.mem_cons_of_mem _ hg))
        refine ⟨?_, a, hm, ?_, ?_, ?_, ?_, ?_, ?_⟩
        · intro g1 hg
          rcases List.mem_cons.mp hg with hg | hg
          · rw [hg]; exact hwl g (List.mem_cons_self _ _)
          · exact hw1 g1 hg
        · intro ha
          obtain ⟨e1, e2⟩ := hl ha
          simp only [writersIn, readersIn]
          generalize (if holdOf g = Hold.write then 1 else 0 : Nat) = x
          generalize (if holdOf g = Hold.read then 1 else 0 : Nat) = y
          omega
        · intro ha
          obtain ⟨e1, e2⟩ := hu ha
          simp only [writersIn, readersIn]
          generalize (if holdOf g = Hold.write then 1 else 0 : Nat) = x
          generalize (if holdOf g = Hold.read then 1 else 0 : Nat) = y
          omega
        · intro ha
          obtain ⟨e1, e2⟩ := hrl ha
          simp only [writersIn, readersIn]
          generalize (if holdOf g = Hold.write then 1 else 0 : Nat) = x
          generalize (if holdOf g = Hold.read then 1 else 0 : Nat) = y
          omega
        · intro ha
          obtain ⟨e1, e2⟩ := hru ha
          simp only [writersIn, readersIn]
          generalize (if holdOf g = Hold.write then 1 else 0 : Nat) = x
          generalize (if holdOf g = Hold.read then 1 else 0 : Nat) = y
          omega
        · intro ha
          obtain ⟨e1, e2⟩ := hrd ha
          simp only [writersIn, readersIn]
          generalize (if holdOf g = Hold.write then 1 else 0 : Nat) = x
          generalize (if holdOf g = Hold.read then 1 else 0 : Nat) = y
          omega
        · intro ha
          obtain ⟨e1, e2⟩ := hwr ha
          simp only [writersIn, readersIn]
          generalize (if holdOf g = Hold.write then 1 else 0 : Nat) = x
          generalize (if holdOf g = Hold.read then 1 else 0 : Nat) = y
          omega

theorem writer_of_nextIs_writeMap (g : List LockAction)
    (hw : wellLocked (holdOf g) g = true) (hn : nextIs .writeMap g = true) :
    holdOf g = .write := by
  cases g with
  | nil => simp [nextIs] at hn
  | cons a rest =>
    have ha : a = .writeMap := by simpa [nextIs] using hn
    obtain ⟨_, _, _, _, _, _, hwr⟩ := wellLocked_tail a rest hw
    rw [(hwr ha).1]
    exact (hwr ha).2

theorem holder_of_accessesMap (g : List LockAction)
    (hw : wellLocked (holdOf g) g = true) (hn : accessesMap g = true) :
    holdOf g = .write ∨ holdOf g = .read := by
  cases g with
  | nil => simp [accessesMap, nextIs] at hn
  | cons a rest =>
    have ha : a = .readMap ∨ a = .writeMap := by simpa [accessesMap, nextIs] using hn
    obtain ⟨_, _, _, _, _, hrd, hwr⟩ := wellLocked_tail a rest hw
    rcases ha with ha | ha
    · obtain ⟨e1, e2⟩ := hrd ha
      rw [e1]
      cases hr : holdOf rest with
      | free => exact absurd hr e2
      | write => exact Or.inl rfl
      | read => exact Or.inr rfl
    · obtain ⟨e1, e2⟩ := hwr ha
      rw [e1]
      exact Or.inl e2

theorem writersIn_of_any_writeMap (gs : List (List LockAction))
    (hw : ∀ g ∈ gs, wellLocked (holdOf g) g = true)
    (h : gs.any (nextIs .writeMap) = true) : 1 ≤ writersIn gs := by
  induction gs with
  | nil => simp at h
  | cons g others ih =>
    rw [List.any_cons, Bool.or_eq_true] at h
    rcases h with h | h
    · have := writer_of_nextIs_writeMap g (hw g (List.mem_cons_self _ _)) h
      simp [writersIn, this]
    · have := ih (fun g1 hg => hw g1 (List.mem_cons_of_mem _ hg)) h
      simp only [writersIn]
      omega

theorem holdersIn_of_any_accessesMap (gs : List (List LockAction))
    (hw : ∀ g ∈ gs, wellLocked (holdOf g) g = true)
    (h : gs.any accessesMap = true) : 1 ≤ writersIn gs + readersIn gs := by
  induction gs with
  | nil => simp at h
  | cons g others ih =>
    rw [List.any_cons, Bool.or_eq_true] at h
    rcases h with h | h
    · rcases holder_of_accessesMap g (hw g (List.mem_cons_self _ _)) h with e | e
      · simp only [writersIn, readersIn, e, if_true]
        omega
      · simp only [writersIn, readersIn, e, if_true]
        omega
    · have := ih (fun g1 hg => hw g1 (List.mem_cons_of_mem _ hg)) h
      simp only [writersIn, readersIn]
      omega

theorem holders_of_raceIn (gs : List (List LockAction))
    (hw : ∀ g ∈ gs, wellLocked (holdOf g) g = true) (h : raceIn gs = true) :
    2 ≤ writersIn gs ∨ (1 ≤ writersIn gs ∧ 1 ≤ readersIn gs) := by
  induction gs with
  | nil => simp [raceIn] at h
  | cons g others ih =>
    have hg := hw g (List.mem_cons_self _ _)
    have ho : ∀ g1 ∈ others, wellLocked (holdOf g1) g1 = true :=
      fun g1 h1 => hw g1 (List.mem_cons_of_mem _ h1)
    simp only [raceIn, Bool.or_eq_true, Bool.and_eq_true] at h
    rcases h with (⟨h1, h2⟩ | ⟨h1, h2⟩) | h
    · have e := writer_of_nextIs_writeMap g hg h1
      have := holdersIn_of_any_accessesMap others ho h2
      simp only [writersIn, readersIn, e, if_true]
      have hne : ¬ (Hold.write = Hold.read) := by decide
      simp only [hne, if_false]
      omega
    · have hwr := writersIn_of_any_writeMap others ho h2
      rcases holder_of_accessesMap g hg h1 with e | e
      · simp only [writersIn, readersIn, e, if_true]
        omega
      · have hne : ¬ (Hold.read = Hold.write) := by decide
        simp only [writersIn, readersIn, e, if_true, hne, if_false]
        omega
    · rcases ih ho h with h | h
      · simp only [writersIn, readersIn]
        omega
      · simp only [writersIn, readersIn]
        omega

theorem step_preserves_discipline (s s' : System) (i : Nat) (hstep : s.step i = some s')
    (hw : ∀ g ∈ s.goroutines, wellLocked (holdOf g) g = true)
    (hW : writersIn s.goroutines = if s.mutex.writer = true then 1 else 0)
    (hR : readersIn s.goroutines = s.mutex.readers)
    (hx : s.mutex.writer = true → s.mutex.readers = 0) :
    (∀ g ∈ s'.goroutines, wellLocked (holdOf g) g = true) ∧
      (writersIn s'.goroutines = if s'.mutex.writer = true then 1 else 0) ∧
      readersIn s'.goroutines = s'.mutex.readers ∧
      (s'.mutex.writer = true → s'.mutex.readers = 0) := by
  obtain ⟨m, gs⟩ := s
  simp only [System.step] at hstep
  cases hs : stepAt m gs i with
  | none => rw [hs] at hstep; simp at hstep
  | some r =>
    obtain ⟨m', gs'⟩ := r
    rw [hs] at hstep
    simp only [Option.some.injEq] at hstep
    subst hstep
    obtain ⟨hw', a, hm, hl, hu, hrl, hru, hrd, hwr⟩ := stepAt_effect m gs i m' gs' hs hw
    refine ⟨hw', ?_⟩
    obtain ⟨w, r⟩ := m
    simp only at hW hR hx ⊢
    cases a with
    | lock =>
      obtain ⟨e1, e2⟩ := hl rfl
      simp only [RWMutex.step] at hm
      split_ifs at hm with hc
      simp only [Option.some.injEq] at hm
      subst hm
      obtain ⟨hc1, hc2⟩ := hc
      subst hc1
      simp at hW ⊢
      omega
    | unlock =>
      obtain ⟨e1, e2⟩ := hu rfl
      simp only [RWMutex.step] at hm
      split_ifs at hm with hc
      simp only [Option.some.injEq] at hm
      subst hm
      subst hc
      simp at hW hx ⊢
      omega
    | rLock =>
      obtain ⟨e1, e2⟩ := hrl rfl
      simp only [RWMutex.step] at hm
      split_ifs at hm with hc
      simp only [Option.some.injEq] at hm
      subst hm
      subst hc
      simp at hW ⊢
      omega
    | rUnlock =>
      obtain ⟨e1, e2⟩ := hru rfl
      simp only [RWMutex.step] at hm
      split_ifs at hm with hc
      simp only [Option.some.injEq] at hm
      subst hm
      simp only at hc
      refine ⟨by rw [e1]; exact hW, ?_, ?_⟩
      · show readersIn gs' = r - 1
        omega
      · intro hwt
        have := hx hwt
        omega
    | readMap =>
      obtain ⟨e1, e2⟩ := hrd rfl
      simp only [RWMutex.step, Option.some.injEq] at hm
      subst hm
      exact ⟨by rw [e1]; exact hW, by rw [e2]; exact hR, hx⟩
    | writeMap =>
      obtain ⟨e1, e2⟩ := hwr rfl
      simp only [RWMutex.step, Option.some.injEq] at hm
      subst hm
      exact ⟨by rw [e1]; exact hW, by rw [e2]; exact hR, hx⟩

theorem run_preserves_discipline (schedule : List Nat) :
    ∀ (s s' : System), s.run schedule = some s' →
      (∀ g ∈ s.goroutines, wellLocked (holdOf g) g = true) →
      (writersIn s.goroutines = if s.mutex.writer = true then 1 else 0) →
      readersIn s.goroutines = s.mutex.readers →
      (s.mutex.writer = true → s.mutex.readers = 0) →
      (∀ g ∈ s'.goroutines, wellLocked (holdOf g) g = true) ∧
        (writersIn s'.goroutines = if s'.mutex.writer = true then 1 else 0) ∧
        readersIn s'.goroutines = s'.mutex.readers ∧
        (s'.mutex.writer = true → s'.mutex.readers = 0) := by
  induction schedule with
  | nil =>
    intro s s' h hw hW hR hx
    simp only [System.run, Option.some.injEq] at h
    subst h
    exact ⟨hw, hW, hR, hx⟩
  | cons i rest ih =>
    intro s s' h hw hW hR hx
    simp only [System.run] at h
    cases hs : s.step i with
    | none => rw [hs] at h; simp at h
    | some s1 =>
      rw [hs] at h
      obtain ⟨a1, a2, a3, a4⟩ := step_preserves_discipline s s1 i hs hw hW hR hx
      exact ih s1 s' h a1 a2 a3 a4

theorem idle_counts (gs : List (List LockAction))
    (h : ∀ g ∈ gs, wellLocked .free g = true) :
    (∀ g ∈ gs, wellLocked (holdOf g) g = true) ∧ writersIn gs = 0 ∧ readersIn gs = 0 := by
  induction gs with
  | nil => simp [writersIn, readersIn]
  | cons g others ih =>
    have hg := h g (List.mem_cons_self _ _)
    have e := holdOf_of_wellLocked g _ hg
    obtain ⟨i1, i2, i3⟩ := ih (fun g1 h1 => h g1 (List.mem_cons_of_mem _ h1))
    refine ⟨?_, ?_, ?_⟩
    · intro g1 h1
      rcases List.mem_cons.mp h1 with h1 | h1
      · rw [h1, e]; exact hg
      · exact i1 g1 h1
    · simp [writersIn, e, i2]
    · simp [readersIn, e, i3]

/-- Goroutines that all follow the locking discipline never reach a state in
which a map write is about to run beside another map access, under any
schedule. -/
theorem well_locked_race_free (gs : List (List LockAction))
    (h : ∀ g ∈ gs, wellLocked .free g = true) (schedule : List Nat) (s' : System)
    (hrun : System.run ⟨⟨false, 0⟩, gs⟩ schedule = some s') :
    raceIn s'.goroutines = false := by
  obtain ⟨i1, i2, i3⟩ := idle_counts gs h
  obtain ⟨a1, a2, a3, a4⟩ :=
    run_preserves_discipline schedule ⟨⟨false, 0⟩, gs⟩ s' hrun i1 (by simpa using i2)
      (by simpa using i3) (by simp)
  cases hr : raceIn s'.goroutines with
  | false => rfl
  | true =>
    exfalso
    rcases holders_of_raceIn _ a1 hr with hh | ⟨hh1, hh2⟩
    · rw [a2] at hh
      split_ifs at hh <;> omega
    · rw [a2] at hh1
      rw [a3] at hh2
      split_ifs at hh1 with hc
      · have := a4 hc
        omega
      · omega

/-- Every goroutine running one of the four store methods follows the locking
discipline, so any number of them, under any schedule, never race on the map;
and two `GetEmployeeByID` calls can hold the read lock at the same time. -/
theorem store_methods_race_free (gs : List (List LockAction))
    (h : ∀ g ∈ gs, g ∈ [CreateEmployeeSteps true, CreateEmployeeSteps false,
      GetEmployeeByIDSteps, UpdateEmployeeSteps true, UpdateEmployeeSteps false,
      DeleteEmployeeSteps true, DeleteEmployeeSteps false])
    (schedule : List Nat) (s' : System)
    (hrun : System.run ⟨⟨false, 0⟩, gs⟩ schedule = some s') :
    raceIn s'.goroutines = false ∧
      System.run ⟨⟨false, 0⟩, [GetEmployeeByIDSteps, GetEmployeeByIDSteps]⟩ [0, 1]
        = some ⟨⟨false, 2⟩, [[.readMap, .rUnlock], [.readMap, .rUnlock]]⟩ := by
  refine ⟨well_locked_race_free gs ?_ schedule s' hrun, by decide⟩
  intro g hg
  have hall : ∀ g1 ∈ [CreateEmployeeSteps true, CreateEmployeeSteps false,
      GetEmployeeByIDSteps, UpdateEmployeeSteps true, UpdateEmployeeSteps false,
      DeleteEmployeeSteps true, DeleteEmployeeSteps false], wellLocked .free g1 = true := by
    decide
  exact hall g (h g hg)

/-! ## The claims -/

/-- C1: creating a record whose ID is not a key of the store succeeds and
returns exactly that record, and getting its ID from the resulting store
succeeds and returns the same record (all four fields). -/
theorem create_then_get (s : EmployeeCache) (e : Employee)
    (h : s.employeeData.get e.ID = none) :
    (CreateEmployee s e).1 = (e, none) ∧
      GetEmployeeByID (CreateEmployee s e).2 e.ID = (e, none) ∧
      (GetEmployeeByID (CreateEmployee s e).2 e.ID).1.ID = e.ID ∧
      (GetEmployeeByID (CreateEmployee s e).2 e.ID).1.Name = e.Name ∧
      (GetEmployeeByID (CreateEmployee s e).2 e.ID).1.Position = e.Position ∧
      (GetEmployeeByID (CreateEmployee s e).2 e.ID).1.Salary = e.Salary := by
  have hget : GetEmployeeByID (CreateEmployee s e).2 e.ID = (e, none) := by
    simp [CreateEmployee, GetEmployeeByID, h, EmployeeMap.get_set_self]
  refine ⟨by simp [CreateEmployee, h], hget, ?_, ?_, ?_, ?_⟩ <;> rw [hget]

/-- The instance of C1 on the record of the repository's test, created in the
empty store. -/
theorem create_then_get_witness :
    (CreateEmployee NewEmployeeCache ⟨"1", "sumithra", "Engineer", 50000⟩).1
        = (⟨"1", "sumithra", "Engineer", 50000⟩, none) ∧
      GetEmployeeByID (CreateEmployee NewEmployeeCache ⟨"1", "sumithra", "Engineer", 50000⟩).2 "1"
        = (⟨"1", "sumithra", "Engineer", 50000⟩, none) :=
  let t := create_then_get NewEmployeeCache ⟨"1", "sumithra", "Engineer", 50000⟩ (by decide)
  ⟨t.1, t.2.1⟩

/-- C2: `CreateEmployee` fails exactly when the ID is already a key; a failing
call returns the zero record with the error and leaves the store as it was; a
successful call returns the record, stores it under its ID and changes no
other key (the entry is added to the entries already there). -/
theorem create_spec (s : EmployeeCache) (e : Employee) :
    ((CreateEmployee s e).1.2 ≠ none ↔ s.employeeData.get e.ID ≠ none) ∧
      (s.employeeData.get e.ID ≠ none →
        CreateEmployee s e = ((Employee.zero, some "employee already found"), s)) ∧
      (s.employeeData.get e.ID = none →
        (CreateEmployee s e).1 = (e, none) ∧
        (CreateEmployee s e).2.employeeData.get e.ID = some e ∧
        (∀ k, k ≠ e.ID →
          (CreateEmployee s e).2.employeeData.get k = s.employeeData.get k) ∧
        (CreateEmployee s e).2.employeeData = s.employeeData ++ [(e.ID, e)]) := by
  cases hg : s.employeeData.get e.ID with
  | none =>
    refine ⟨by simp [CreateEmployee, hg], by simp, fun _ => ⟨by simp [CreateEmployee, hg], ?_, ?_, ?_⟩⟩
    · simp [CreateEmployee, hg, EmployeeMap.get_set_self]
    · intro k hk
      simp [CreateEmployee, hg, EmployeeMap.get_set_other _ _ _ _ hk]
    · simp [CreateEmployee, hg, EmployeeMap.set_of_absent _ _ _ hg]
  | some r =>
    refine ⟨by simp [CreateEmployee, hg], fun _ => by simp [CreateEmployee, hg], by simp⟩

/-- C3: `UpdateEmployee` fails exactly when the id is not a key, then leaving
the store unchanged; otherwise it returns the stored record with the three
fields replaced and the ID kept, the resulting store holds that record under
the id (a following get returns it), and no other key changes. -/
theorem update_spec (s : EmployeeCache) (id name position : String) (salary : Int) :
    ((UpdateEmployee s id name position salary).1.2 ≠ none ↔ s.employeeData.get id = none) ∧
      (s.employeeData.get id = none →
        UpdateEmployee s id name position salary
          = ((Employee.zero, some "employee not found"), s)) ∧
      (∀ r, s.employeeData.get id = some r →
        (UpdateEmployee s id name position salary).1
          = (⟨r.ID, name, position, salary⟩, none) ∧
        (UpdateEmployee s id name position salary).2.employeeData.get id
          = some ⟨r.ID, name, position, salary⟩ ∧
        GetEmployeeByID (UpdateEmployee s id name position salary).2 id
          = (⟨r.ID, name, position, salary⟩, none) ∧
        (∀ k, k ≠ id →
          (UpdateEmployee s id name position salary).2.employeeData.get k
            = s.employeeData.get k)) := by
  cases hg : s.employeeData.get id with
  | none =>
    exact ⟨by simp [UpdateEmployee, hg], fun _ => by simp [UpdateEmployee, hg], by simp⟩
  | some r0 =>
    refine ⟨by simp [UpdateEmployee, hg], by simp, ?_⟩
    intro r hr
    have hr0 : r0 = r := by simpa using hr
    subst hr0
    refine ⟨by simp [UpdateEmployee, hg], ?_, ?_, ?_⟩
    · simp [UpdateEmployee, hg, EmployeeMap.get_set_self]
    · simp [UpdateEmployee, GetEmployeeByID, hg, EmployeeMap.get_set_self]
    · intro k hk
      simp [UpdateEmployee, hg, EmployeeMap.get_set_other _ _ _ _ hk]

/-- C4: `DeleteEmployee` fails exactly when the id is not a key, then leaving
the store unchanged; otherwise it succeeds, a following get of the id fails
with the not-found error, and no other key changes. -/
theorem delete_spec (s : EmployeeCache) (id : String) :
    ((DeleteEmployee s id).1 ≠ none ↔ s.employeeData.get id = none) ∧
      (s.employeeData.get id = none →
        DeleteEmployee s id = (some "employee not found", s)) ∧
      (s.employeeData.get id ≠ none →
        (DeleteEmployee s id).1 = none ∧
        GetEmployeeByID (DeleteEmployee s id).2 id
          = (Employee.zero, some "employee not found") ∧
        (∀ k, k ≠ id →
          (DeleteEmployee s id).2.employeeData.get k = s.employeeData.get k) ∧
        (DeleteEmployee s id).2.employeeData
          = s.employeeData.filter (fun p => decide (p.1 ≠ id))) := by
  cases hg : s.employeeData.get id with
  | none =>
    exact ⟨by simp [DeleteEmployee, hg], fun _ => by simp [DeleteEmployee, hg], by simp⟩
  | some r =>
    refine ⟨by simp [DeleteEmployee, hg], by simp, fun _ => ⟨by simp [DeleteEmployee, hg], ?_, ?_, ?_⟩⟩
    · simp [DeleteEmployee, GetEmployeeByID, hg, EmployeeMap.get_delete_self]
    · intro k hk
      simp [DeleteEmployee, hg, EmployeeMap.get_delete_other _ _ _ hk]
    · simp [DeleteEmployee, hg, EmployeeMap.delete]

/-- C7: in every store reached from `NewEmployeeCache()` by any sequence of
create, update and delete calls, every record is stored under the key equal to
its own ID, so the IDs of the stored records are pairwise distinct, and no
further call changes the ID of a record that stays in the store. -/
theorem id_invariant (ops : List StoreOp) :
    (∀ k e, (runOps ops).employeeData.get k = some e → e.ID = k) ∧
      (∀ p ∈ (runOps ops).employeeData, p.2.ID = p.1) ∧
      ((runOps ops).employeeData.map (fun p => p.2.ID)).Nodup ∧
      (∀ (op : StoreOp) (k : String) (r r' : Employee),
        (runOps ops).employeeData.get k = some r →
        (op.apply (runOps ops)).employeeData.get k = some r' → r'.ID = r.ID) := by
  obtain ⟨hn, hid⟩ := runOps_invariant ops
  refine ⟨?_, hid, ?_, ?_⟩
  · intro k e h
    exact hid (k, e) (EmployeeMap.mem_of_get _ _ _ h)
  · have hmap : (runOps ops).employeeData.map (fun p => p.2.ID)
        = (runOps ops).employeeData.map Prod.fst :=
      List.map_congr_left (fun p hp => hid p hp)
    rw [hmap]
    exact hn
  · intro op k r r' h h'
    generalize runOps ops = s at h h'
    cases op with
    | create emp =>
      simp only [StoreOp.apply, CreateEmployee] at h'
      cases hg : s.employeeData.get emp.ID with
      | some r0 =>
        rw [hg] at h'
        simp only at h'
        rw [h] at h'
        rw [← Option.some.inj h']
      | none =>
        rw [hg] at h'
        simp only at h'
        have hk : k ≠ emp.ID := by
          intro hk
          rw [hk, hg] at h
          exact Option.noConfusion h
        rw [EmployeeMap.get_set_other _ _ _ _ hk, h] at h'
        rw [← Option.some.inj h']
    | update id name position salary =>
      simp only [StoreOp.apply, UpdateEmployee] at h'
      cases hg : s.employeeData.get id with
      | none =>
        rw [hg] at h'
        simp only at h'
        rw [h] at h'
        rw [← Option.some.inj h']
      | some r0 =>
        rw [hg] at h'
        simp only at h'
        by_cases hk : k = id
        · subst hk
          rw [EmployeeMap.get_set_self] at h'
          rw [hg] at h
          rw [← Option.some.inj h', ← Option.some.inj h]
        · rw [EmployeeMap.get_set_other _ _ _ _ hk, h] at h'
          rw [← Option.some.inj h']
    | delete id =>
      simp only [StoreOp.apply, DeleteEmployee] at h'
      cases hg : s.employeeData.get id with
      | none =>
        rw [hg] at h'
        simp only at h'
        rw [h] at h'
        rw [← Option.some.inj h']
      | some r0 =>
        rw [hg] at h'
        simp only at h'
        by_cases hk : k = id
        · subst hk
          rw [EmployeeMap.get_delete_self] at h'
          exact Option.noConfusion h'
        · rw [EmployeeMap.get_delete_other _ _ _ hk, h] at h'
          rw [← Option.some.inj h']

/-- C8: when `CreateEmployee(a)` succeeds on a store and `CreateEmployee(b)`
then succeeds on the resulting store, the two IDs differ and both records are
afterwards returned by `GetEmployeeByID` under their own IDs. -/
theorem create_two_distinct (s : EmployeeCache) (a b : Employee)
    (ha : (CreateEmployee s a).1.2 = none)
    (hb : (CreateEmployee (CreateEmployee s a).2 b).1.2 = none) :
    a.ID ≠ b.ID ∧
      GetEmployeeByID (CreateEmployee (CreateEmployee s a).2 b).2 a.ID = (a, none) ∧
      GetEmployeeByID (CreateEmployee (CreateEmployee s a).2 b).2 b.ID = (b, none) := by
  have hga : s.employeeData.get a.ID = none := by
    cases hg : s.employeeData.get a.ID with
    | none => rfl
    | some r => simp [CreateEmployee, hg] at ha
  have hs1 : (CreateEmployee s a).2 = ⟨s.employeeData.set a.ID a⟩ := by
    simp [CreateEmployee, hga]
  rw [hs1] at hb ⊢
  have hgb : (s.employeeData.set a.ID a).get b.ID = none := by
    cases hg : (s.employeeData.set a.ID a).get b.ID with
    | none => rfl
    | some r => simp [CreateEmployee, hg] at hb
  have hne : a.ID ≠ b.ID := by
    intro h
    rw [← h, EmployeeMap.get_set_self] at hgb
    exact Option.noConfusion hgb
  refine ⟨hne, ?_, ?_⟩
  · simp [CreateEmployee, GetEmployeeByID, hgb, EmployeeMap.get_set_other _ _ _ _ hne,
      EmployeeMap.get_set_self]
  · simp [CreateEmployee, GetEmployeeByID, hgb, EmployeeMap.get_set_self]

/-- The instance of C8 on two records created one after the other in the empty
store. -/
theorem create_two_distinct_witness :
    (⟨"a1", "sumithra", "Engineer", 50000⟩ : Employee).ID
        ≠ (⟨"b2", "kathir", "Manager", 70000⟩ : Employee).ID ∧
      GetEmployeeByID
          (CreateEmployee
            (CreateEmployee NewEmployeeCache ⟨"a1", "sumithra", "Engineer", 50000⟩).2
            ⟨"b2", "kathir", "Manager", 70000⟩).2 "a1"
        = (⟨"a1", "sumithra", "Engineer", 50000⟩, none) ∧
      GetEmployeeByID
          (CreateEmployee
            (CreateEmployee NewEmployeeCache ⟨"a1", "sumithra", "Engineer", 50000⟩).2
            ⟨"b2", "kathir", "Manager", 70000⟩).2 "b2"
        = (⟨"b2", "kathir", "Manager", 70000⟩, none) :=
  create_two_distinct NewEmployeeCache ⟨"a1", "sumithra", "Engineer", 50000⟩
    ⟨"b2", "kathir", "Manager", 70000⟩ (by decide) (by decide)

/-- C9: the Get, Update (with a bound body) and Delete handlers answer 404
with the not-found error exactly when the path id is not a key of the store;
otherwise Get answers 200 with the stored record, Delete answers 204 with an
empty body and removes the record, and Update answers 200 with the record
whose name, position and salary are the body's and whose ID is the stored
record's, whatever ID the body carries. -/
theorem handler_status (s : EmployeeCache) (id : String) (body : Employee) :
    ((GetEmployeeDetails s id).status = 404 ↔ s.employeeData.get id = none) ∧
      ((UpdateEmployeeDetails s id (.ok body)).1.status = 404 ↔ s.employeeData.get id = none) ∧
      ((DeleteEmployeeDetails s id).1.status = 404 ↔ s.employeeData.get id = none) ∧
      (s.employeeData.get id = none →
        GetEmployeeDetails s id = ⟨404, Body.error "employee not found"⟩ ∧
        UpdateEmployeeDetails s id (.ok body)
          = (⟨404, Body.error "employee not found"⟩, s) ∧
        DeleteEmployeeDetails s id = (⟨404, Body.error "employee not found"⟩, s)) ∧
      (∀ r, s.employeeData.get id = some r →
        GetEmployeeDetails s id = ⟨200, Body.employee r⟩ ∧
        (DeleteEmployeeDetails s id).1 = ⟨204, Body.empty⟩ ∧
        (DeleteEmployeeDetails s id).2.employeeData.get id = none ∧
        (∀ k, k ≠ id →
          (DeleteEmployeeDetails s id).2.employeeData.get k = s.employeeData.get k) ∧
        (UpdateEmployeeDetails s id (.ok body)).1
          = ⟨200, Body.employee ⟨r.ID, body.Name, body.Position, body.Salary⟩⟩ ∧
        (UpdateEmployeeDetails s id (.ok body)).2.employeeData.get id
          = some ⟨r.ID, body.Name, body.Position, body.Salary⟩) := by
  cases hg : s.employeeData.get id with
  | none =>
    simp [GetEmployeeDetails, UpdateEmployeeDetails, DeleteEmployeeDetails, GetEmployeeByID,
      UpdateEmployee, DeleteEmployee, hg, StatusNotFound]
  | some r0 =>
    refine ⟨?_, ?_, ?_, by simp, ?_⟩
    · simp [GetEmployeeDetails, GetEmployeeByID, hg, StatusOK]
    · simp [UpdateEmployeeDetails, UpdateEmployee, hg, StatusOK]
    · simp [DeleteEmployeeDetails, DeleteEmployee, hg, StatusNoContent]
    · intro r hr
      have hr0 : r0 = r := by simpa using hr
      subst hr0
      refine ⟨?_, ?_, ?_, ?_, ?_, ?_⟩
      · simp [GetEmployeeDetails, GetEmployeeByID, hg, StatusOK]
      · simp [DeleteEmployeeDetails, DeleteEmployee, hg, StatusNoContent]
      · simp [DeleteEmployeeDetails, DeleteEmployee, hg, EmployeeMap.get_delete_self]
      · intro k hk
        simp [DeleteEmployeeDetails, DeleteEmployee, hg, EmployeeMap.get_delete_other _ _ _ hk]
      · simp [UpdateEmployeeDetails, UpdateEmployee, hg, StatusOK]
      · simp [UpdateEmployeeDetails, UpdateEmployee, hg, EmployeeMap.get_set_self]

/-- C5 (the code at the failing inputs): on every store the List handler
panics, instead of answering 200, for `page=0`, for a non-numeric `page`, and
for `per_page=-1`; the lower bound of the window is never clamped, so `start`
or `end` is negative there. -/
theorem list_handler_panics (cache : EmployeeCache) :
    ListEmployeesDetails cache (some "0") none = none ∧
      ListEmployeesDetails cache (some "abc") none = none ∧
      ListEmployeesDetails cache none (some "-1") = none := by
  have h0 : Atoi (DefaultQuery (some "0") "1") = 0 := by decide
  have habc : Atoi (DefaultQuery (some "abc") "1") = 0 := by decide
  have h1 : Atoi (DefaultQuery none "1") = 1 := by decide
  have h10 : Atoi (DefaultQuery none "10") = 10 := by decide
  have hm1 : Atoi (DefaultQuery (some "-1") "10") = -1 := by decide
  have hp0 : paginate (cache.employeeData.map Prod.snd) 0 10 = none :=
    paginate_of_negative_start _ _ _ (by decide)
  have hp1 : paginate (cache.employeeData.map Prod.snd) 1 (-1) = none :=
    paginate_of_negative_end _ _ _ (by decide)
  refine ⟨?_, ?_, ?_⟩
  · unfold ListEmployeesDetails
    rw [h0, h10]
    simp only [hp0]
  · unfold ListEmployeesDetails
    rw [habc, h10]
    simp only [hp0]
  · unfold ListEmployeesDetails
    rw [h1, hm1]
    simp only [hp1]

/-- C6 (the code at the failing inputs): for `page >= 1` and `per_page >= 0`
whose product `(page-1)*per_page` fits the machine int while
`(page-1)*per_page + per_page` does not, `end` wraps to a negative number,
passes the guard of lines 92 to 94, and the slice expression panics: on every
snapshot `paginate` has no result, and on every store the List handler
panics instead of answering 200 with the window. -/
theorem list_handler_end_overflow (cache : EmployeeCache)
    (pageQuery perPageQuery : Option String)
    (hpage : 1 ≤ Atoi (DefaultQuery pageQuery "1"))
    (hper : 0 ≤ Atoi (DefaultQuery perPageQuery "10"))
    (hstart : (Atoi (DefaultQuery pageQuery "1") - 1) * Atoi (DefaultQuery perPageQuery "10")
      ≤ intMax)
    (hend : intMax < (Atoi (DefaultQuery pageQuery "1") - 1)
      * Atoi (DefaultQuery perPageQuery "10") + Atoi (DefaultQuery perPageQuery "10")) :
    (∀ employees : List Employee,
        paginate employees (Atoi (DefaultQuery pageQuery "1"))
          (Atoi (DefaultQuery perPageQuery "10")) = none) ∧
      ListEmployeesDetails cache pageQuery perPageQuery = none := by
  have hall : ∀ employees : List Employee,
      paginate employees (Atoi (DefaultQuery pageQuery "1"))
        (Atoi (DefaultQuery perPageQuery "10")) = none :=
    fun employees =>
      paginate_of_end_overflow employees _ _ hpage
        (Atoi_range (DefaultQuery pageQuery "1")).2 hper
        (Atoi_range (DefaultQuery perPageQuery "10")).2 hstart hend
  refine ⟨hall, ?_⟩
  unfold ListEmployeesDetails
  simp only [hall]

/-- The instance of C6 at the failing input: three records, `page=2` and
`per_page=4611686018427387904`; the product fits the machine int and the
handler panics. -/
theorem list_handler_end_overflow_witness :
    (1 : Int) ≤ 2 ∧ (0 : Int) ≤ 4611686018427387904 ∧
      ((2 : Int) - 1) * 4611686018427387904 ≤ intMax ∧
      paginate [⟨"1", "a", "x", 1⟩, ⟨"2", "b", "y", 2⟩, ⟨"3", "c", "z", 3⟩]
          (Atoi (DefaultQuery (some "2") "1"))
          (Atoi (DefaultQuery (some "4611686018427387904") "10"))
        = none ∧
      ListEmployeesDetails
          ⟨[("1", ⟨"1", "a", "x", 1⟩), ("2", ⟨"2", "b", "y", 2⟩), ("3", ⟨"3", "c", "z", 3⟩)]⟩
          (some "2") (some "4611686018427387904")
        = none :=
  let t := list_handler_end_overflow
    ⟨[("1", ⟨"1", "a", "x", 1⟩), ("2", ⟨"2", "b", "y", 2⟩), ("3", ⟨"3", "c", "z", 3⟩)]⟩
    (some "2") (some "4611686018427387904") (by decide) (by decide) (by decide) (by decide)
  ⟨by decide, by decide, by decide, t.1 _, t.2⟩

/-- C10 (the code at the failing input): the List handler takes no lock, so
with one goroutine in `CreateEmployee` and one in `ListEmployeesDetails` the
schedule create, create, list reaches a state in which the writer holds the
lock and is about to write the map while the handler is about to iterate over
it, and the schedule that lets the write run between the handler's two reads
runs to the end. -/
theorem list_handler_races :
    wellLocked .free ListEmployeesDetailsSteps = false ∧
      System.run ⟨⟨false, 0⟩, [CreateEmployeeSteps false, ListEmployeesDetailsSteps]⟩ [0, 0, 1]
        = some ⟨⟨true, 0⟩, [[.writeMap, .unlock], [.readMap]]⟩ ∧
      raceIn [[.writeMap, .unlock], [.readMap]] = true ∧
      System.run ⟨⟨false, 0⟩, [CreateEmployeeSteps false, ListEmployeesDetailsSteps]⟩
          [0, 0, 1, 0, 1, 0]
        = some ⟨⟨false, 0⟩, [[], []]⟩ := by
  decide

end EmployeeManagement
